import Mathlib

/-!
Verification of the Spartan distributed-array substrate.

The development shallowly embeds the code of src/spartan/dense/distarray.py
and src/spartan/expr/reshape.py.  The extent algebra (dense/extent.py) and
the tile module (dense/tile.py) are not part of the provided sources; the
definitions standing for them are modelled from the specification and say so
in their doc comments.  Machine integers are modelled as Nat/Int (Python 2
integers are unbounded, so no wrap-around modelling is needed); fallible
Python code (assertions, KeyError, ValueError, ZeroDivisionError) is
modelled with Except String.
-/

namespace Spartan

/-- Number of elements per tile (distarray.py line 12). -/
def TILE_SIZE : Nat := 100000

/-- Modelled from the spec: TileExtent (spec section 3), an axis-aligned
rectangle with inclusive ul, exclusive lr and the enclosing array shape;
two extents are equal iff all three fields match (dense/extent.py is not
under src/). -/
structure TileExtent where
  ul : List Nat
  lr : List Nat
  array_shape : List Nat
deriving DecidableEq

/-- Modelled from the spec: the shape of an extent is its per-axis width
lr[i] - ul[i]. -/
def extShape (ex : TileExtent) : List Nat :=
  List.zipWith (fun l u => l - u) ex.lr ex.ul

/-- Modelled from the spec: the size (element count) of an extent, used by
best_locality as the overlap area. -/
def extSize (ex : TileExtent) : Nat :=
  (extShape ex).prod

/-- Decidable rendering of the extent invariant 0 <= ul[i] <= lr[i] <= shape[i]
with all three lists of equal length. -/
def extentOk : List Nat → List Nat → List Nat → Bool
  | [], [], [] => true
  | u :: us, l :: ls, s :: ss => decide (u ≤ l) && decide (l ≤ s) && extentOk us ls ss
  | _, _, _ => false

/-- Modelled from the spec: extent.create validates the invariants and fails
with InvalidExtent otherwise (spec section 4.1). -/
def extentCreate (ul lr shape : List Nat) : Except String TileExtent :=
  if extentOk ul lr shape then .ok ⟨ul, lr, shape⟩ else .error "InvalidExtent"

/-- Modelled from the spec: intersection is per-axis max(ul)..min(lr), and
None when any axis produces an empty range (spec section 4.1). -/
def intersection (a b : TileExtent) : Option TileExtent :=
  let ul := List.zipWith max a.ul b.ul
  let lr := List.zipWith min a.lr b.lr
  if (List.zip ul lr).all (fun p => decide (p.1 < p.2)) then some ⟨ul, lr, a.array_shape⟩
  else none

/-- Modelled from the spec: find_overlapping enumerates every extent with a
non-empty intersection with the region, paired with that intersection (spec
section 4.1); the enumeration follows the order of the input list, which
models the iteration order of the extents mapping. -/
def findOverlapping (exts : List TileExtent) (region : TileExtent) :
    List (TileExtent × TileExtent) :=
  exts.filterMap (fun ex => (intersection ex region).map (fun i => (ex, i)))

/-- Modelled from the spec: offset_slice returns the per-axis index ranges of
inner relative to outer (start, stop) = (inner.ul - outer.ul, inner.lr - outer.ul)
(spec section 4.1). -/
def offsetSlice (outer inner : TileExtent) : List (Nat × Nat) :=
  List.zipWith (fun o p => (p.1 - o, p.2 - o)) outer.ul (List.zip inner.ul inner.lr)

/-- Loop of distarray.py lines 89-90 and 101-102: the Python range(0, n, step)
loop appending (i, min(n, i + step)).  Fuel-based structural recursion (fuel n
is enough whenever 1 <= step) so that terms reduce by rfl. -/
def chunksGo (step : Nat) : Nat → Nat → Nat → List (Nat × Nat)
  | 0, _, _ => []
  | f + 1, i, n => if i < n then (i, min n (i + step)) :: chunksGo step f (i + step) n else []

/-- Contiguous chunks of one axis of length n with the given step, the final
chunk possibly shorter (distarray.py lines 88-92 and 98-103).  Callers raise
before reaching a zero step (Python range rejects a zero step). -/
def chunksOf (n step : Nat) : List (Nat × Nat) :=
  chunksGo step n 0 n

/-- Reversed-axis loop of distarray.py lines 86-93: the input is the reversed
shape and w the running product weight; each axis gets chunks of step
max(1, TILE_SIZE / w) (Python 2 integer division), then w is multiplied by
the axis length. -/
def splitsNoHintGo : List Nat → Nat → List (List (Nat × Nat))
  | [], _ => []
  | n :: rest, w => chunksOf n (max 1 (TILE_SIZE / w)) :: splitsNoHintGo rest (w * n)

/-- Per-dimension splits chosen without a tile hint (distarray.py lines 82-93):
dimensions are processed innermost first, so the loop runs on the reversed
shape and the result is reversed back into dimension order. -/
def splitsNoHint (shape : List Nat) : List (List (Nat × Nat)) :=
  (splitsNoHintGo shape.reverse 1).reverse

/-- Closed-form description of the no-hint splits: axis d is chunked with step
max(1, TILE_SIZE / w) where w is the product of the lengths of the axes after
d (the running product carried by the source loop). -/
def splitsNoHintSpec : List Nat → List (List (Nat × Nat))
  | [] => []
  | n :: rest => chunksOf n (max 1 (TILE_SIZE / rest.prod)) :: splitsNoHintSpec rest

/-- Cartesian product of the per-dimension split lists in the order of
itertools.product (distarray.py line 107). -/
def listProd : List (List α) → List (List α)
  | [] => [[]]
  | l :: ls => l.flatMap (fun x => (listProd ls).map (fun cell => x :: cell))

/-- Loop of distarray.py lines 106-114 carrying the running idx: before each
cell the idx is reduced modulo num_shards when num_shards is not the -1
sentinel (ZeroDivisionError when num_shards is 0), the cell is unzipped
(Python zip(*slc) raises ValueError on an empty cell), an extent is created
and paired with the idx, and the idx is incremented. -/
def assembleGo (shape : List Nat) (ns : Int) :
    List (List (Nat × Nat)) → Int → Except String (List (TileExtent × Int))
  | [], _ => .ok []
  | cell :: rest, idx =>
    if ns ≠ -1 ∧ ns = 0 then .error "integer division or modulo by zero"
    else
      let idx1 := if ns ≠ -1 then Int.fmod idx ns else idx
      if cell.isEmpty then .error "need more than 0 values to unpack"
      else
        match extentCreate (cell.map Prod.fst) (cell.map Prod.snd) shape with
        | .error e => .error e
        | .ok ex =>
          match assembleGo shape ns rest (idx1 + 1) with
          | .error e => .error e
          | .ok tail => .ok ((ex, idx1) :: tail)

/-- compute_splits (distarray.py lines 68-116).  The returned dict is modelled
as the association list of (extent, shard) pairs in production order; the
num_shards sentinel for "not given" is -1 as in the source. -/
def computeSplits (shape : List Nat) (tileHint : Option (List Nat)) (numShards : Int) :
    Except String (List (TileExtent × Int)) :=
  match tileHint with
  | none =>
    if shape.isEmpty then .ok [(⟨[], [], []⟩, 0)]
    else assembleGo shape numShards (listProd (splitsNoHint shape)) 0
  | some hint =>
    if hint.length ≠ shape.length then
      .error "dimensions in tile hint does not match shape"
    else if hint.any (fun x => decide (x = 0)) then
      .error "range step argument must not be zero"
    else assembleGo shape numShards (listProd (List.zipWith chunksOf shape hint)) 0

/-- Shard assigned to the k-th extent in production order: k itself when
num_shards is the -1 sentinel, and k mod num_shards otherwise. -/
def shardAssign (ns : Int) (k : Nat) : Int :=
  if ns = -1 then (k : Int) else (k : Int) % ns

/-- Extent built from one product cell: ul collects the chunk starts, lr the
chunk stops. -/
def cellExtent (shape : List Nat) (cell : List (Nat × Nat)) : TileExtent :=
  ⟨cell.map Prod.fst, cell.map Prod.snd, shape⟩

/-- Expected successful output of the splitter loop beginning at index k:
each cell becomes its extent paired with its round-robin (or unique) shard. -/
def describeFrom (shape : List Nat) (ns : Int) :
    List (List (Nat × Nat)) → Nat → List (TileExtent × Int)
  | [], _ => []
  | cell :: rest, k => (cellExtent shape cell, shardAssign ns k) :: describeFrom shape ns rest (k + 1)

lemma mem_chunksGo {step : Nat} :
    ∀ (f i n : Nat) (p : Nat × Nat), p ∈ chunksGo step f i n → p.1 ≤ p.2 ∧ p.2 ≤ n := by
  intro f
  induction f with
  | zero => intro i n p hp; simp [chunksGo] at hp
  | succ f ih =>
    intro i n p hp
    by_cases hin : i < n
    · rw [chunksGo, if_pos hin] at hp
      rcases List.mem_cons.mp hp with h | h
      · subst h
        exact ⟨le_min (le_of_lt hin) (Nat.le_add_right i step), min_le_left _ _⟩
      · exact ih _ _ _ h
    · rw [chunksGo, if_neg hin] at hp
      simp at hp

lemma mem_chunksOf {n step : Nat} {p : Nat × Nat}
    (hp : p ∈ chunksOf n step) : p.1 ≤ p.2 ∧ p.2 ≤ n :=
  mem_chunksGo n 0 n p hp

lemma mem_listProd {dims : List (List (Nat × Nat))} :
    ∀ {cell : List (Nat × Nat)}, cell ∈ listProd dims →
      List.Forall₂ (fun x l => x ∈ l) cell dims := by
  induction dims with
  | nil =>
    intro cell hc
    simp [listProd] at hc
    subst hc
    exact List.Forall₂.nil
  | cons l ls ih =>
    intro cell hc
    rw [listProd, List.mem_flatMap] at hc
    obtain ⟨x, hx, hcell⟩ := hc
    rw [List.mem_map] at hcell
    obtain ⟨c, hcmem, rfl⟩ := hcell
    exact List.Forall₂.cons hx (ih hcmem)

lemma forall₂_bounds_of_mem {cell : List (Nat × Nat)} {dims : List (List (Nat × Nat))}
    {shape : List Nat}
    (hmem : List.Forall₂ (fun x l => x ∈ l) cell dims)
    (hval : List.Forall₂ (fun l n => ∀ p ∈ l, p.1 ≤ p.2 ∧ p.2 ≤ n) dims shape) :
    List.Forall₂ (fun (p : Nat × Nat) (n : Nat) => p.1 ≤ p.2 ∧ p.2 ≤ n) cell shape := by
  induction hmem generalizing shape with
  | nil =>
    cases hval
    exact List.Forall₂.nil
  | cons hx hrest ih =>
    cases hval with
    | cons hv hvs => exact List.Forall₂.cons (hv _ hx) (ih hvs)

lemma extentOk_of_bounds {cell : List (Nat × Nat)} {shape : List Nat}
    (h : List.Forall₂ (fun (p : Nat × Nat) (n : Nat) => p.1 ≤ p.2 ∧ p.2 ≤ n) cell shape) :
    extentOk (cell.map Prod.fst) (cell.map Prod.snd) shape = true := by
  induction h with
  | nil => rfl
  | cons hp hrest ih => simp [extentOk, hp.1, hp.2, ih]

lemma extentCreate_ok_of_bounds {cell : List (Nat × Nat)} {shape : List Nat}
    (h : List.Forall₂ (fun (p : Nat × Nat) (n : Nat) => p.1 ≤ p.2 ∧ p.2 ≤ n) cell shape) :
    extentCreate (cell.map Prod.fst) (cell.map Prod.snd) shape =
      .ok (cellExtent shape cell) := by
  rw [extentCreate, if_pos (extentOk_of_bounds h)]
  rfl

lemma zipWith_chunksOf_valid :
    ∀ (shape hint : List Nat), hint.length = shape.length →
      List.Forall₂ (fun l n => ∀ p ∈ l, p.1 ≤ p.2 ∧ p.2 ≤ n)
        (List.zipWith chunksOf shape hint) shape := by
  intro shape
  induction shape with
  | nil => intro hint _; simp
  | cons n rest ih =>
    intro hint hlen
    cases hint with
    | nil => simp at hlen
    | cons h hs =>
      simp only [List.zipWith_cons_cons]
      refine List.Forall₂.cons ?_ (ih hs (by simpa using hlen))
      intro p hp
      exact mem_chunksOf hp

lemma splitsNoHintSpec_valid :
    ∀ shape : List Nat,
      List.Forall₂ (fun l n => ∀ p ∈ l, p.1 ≤ p.2 ∧ p.2 ≤ n)
        (splitsNoHintSpec shape) shape := by
  intro shape
  induction shape with
  | nil => exact List.Forall₂.nil
  | cons n rest ih =>
    refine List.Forall₂.cons ?_ ih
    intro p hp
    exact mem_chunksOf hp

lemma splitsNoHintGo_append :
    ∀ (a b : List Nat) (w : Nat),
      splitsNoHintGo (a ++ b) w = splitsNoHintGo a w ++ splitsNoHintGo b (w * a.prod) := by
  intro a
  induction a with
  | nil => intro b w; simp [splitsNoHintGo]
  | cons n rest ih =>
    intro b w
    simp only [List.cons_append, splitsNoHintGo, List.prod_cons]
    rw [show rest.append b = rest ++ b from rfl, ih b (w * n)]
    simp [Nat.mul_assoc]

/-- Intermediate description of the no-hint splits with an outer weight w. -/
def splitsNoHintW : List Nat → Nat → List (List (Nat × Nat))
  | [], _ => []
  | n :: rest, w => chunksOf n (max 1 (TILE_SIZE / (w * rest.prod))) :: splitsNoHintW rest w

lemma splitsNoHintGo_reverse :
    ∀ (l : List Nat) (w : Nat), (splitsNoHintGo l.reverse w).reverse = splitsNoHintW l w := by
  intro l
  induction l with
  | nil => intro w; rfl
  | cons n rest ih =>
    intro w
    rw [List.reverse_cons, splitsNoHintGo_append, List.prod_reverse]
    simp only [splitsNoHintGo, List.reverse_append, List.reverse_cons, List.reverse_nil]
    rw [splitsNoHintW]
    simp [ih w]

lemma splitsNoHintW_one : ∀ l : List Nat, splitsNoHintW l 1 = splitsNoHintSpec l := by
  intro l
  induction l with
  | nil => rfl
  | cons n rest ih => simp [splitsNoHintW, splitsNoHintSpec, ih, Nat.one_mul]

lemma splitsNoHint_eq_spec (shape : List Nat) : splitsNoHint shape = splitsNoHintSpec shape := by
  rw [splitsNoHint, splitsNoHintGo_reverse, splitsNoHintW_one]

lemma forall₂_length_right {R : α → β → Prop} {l1 : List α} {l2 : List β}
    (h : List.Forall₂ R l1 l2) : l1.length = l2.length :=
  List.Forall₂.length_eq h

/-- Validity package needed by the assembly loop. -/
def CellsValid (shape : List Nat) (cells : List (List (Nat × Nat))) : Prop :=
  ∀ cell ∈ cells, cell ≠ [] ∧
    extentCreate (cell.map Prod.fst) (cell.map Prod.snd) shape = .ok (cellExtent shape cell)

lemma cellsValid_of_dims {shape : List Nat} {dims : List (List (Nat × Nat))}
    (hshape : shape ≠ [])
    (hval : List.Forall₂ (fun l n => ∀ p ∈ l, p.1 ≤ p.2 ∧ p.2 ≤ n) dims shape) :
    CellsValid shape (listProd dims) := by
  intro cell hc
  have hmem := mem_listProd hc
  have hbounds := forall₂_bounds_of_mem hmem hval
  constructor
  · intro hnil
    subst hnil
    have h1 := forall₂_length_right hmem
    have h2 := forall₂_length_right hval
    simp at h1
    rw [← h1] at h2
    exact hshape (List.length_eq_zero.mp h2.symm)
  · exact extentCreate_ok_of_bounds hbounds

lemma assembleGo_unique (shape : List Nat) :
    ∀ (cells : List (List (Nat × Nat))), CellsValid shape cells →
      ∀ k : Nat, assembleGo shape (-1) cells (k : Int) =
        .ok (describeFrom shape (-1) cells k) := by
  intro cells
  induction cells with
  | nil => intro _ k; rfl
  | cons cell rest ih =>
    intro hv k
    obtain ⟨hne, hcreate⟩ := hv cell (List.mem_cons_self _ _)
    have hrest : CellsValid shape rest := fun c hc => hv c (List.mem_cons_of_mem _ hc)
    have hemp : cell.isEmpty = false := by
      cases cell with
      | nil => exact absurd rfl hne
      | cons a b => rfl
    have hcond : ¬((-1 : Int) ≠ -1 ∧ (-1 : Int) = 0) := by simp
    have hmod : ¬((-1 : Int) ≠ -1) := by simp
    rw [assembleGo, if_neg hcond]
    simp only [if_neg hmod, hemp, Bool.false_eq_true, if_false]
    rw [hcreate]
    have hcast : ((k : Int) + 1) = ((k + 1 : Nat) : Int) := by push_cast; ring
    rw [hcast, ih hrest (k + 1)]
    rfl

lemma emod_shift (a : Int) {ns : Int} (k : Nat) (h : a % ns = (k : Int) % ns) :
    (a + 1) % ns = ((k + 1 : Nat) : Int) % ns := by
  have h1 : (a + 1) % ns = (a % ns + 1 % ns) % ns := Int.add_emod a 1 ns
  have h2 : ((k : Int) + 1) % ns = ((k : Int) % ns + 1 % ns) % ns := Int.add_emod _ 1 ns
  push_cast
  rw [h1, h2, h]

lemma assembleGo_mod (shape : List Nat) {ns : Int} (hns : 0 < ns) :
    ∀ (cells : List (List (Nat × Nat))), CellsValid shape cells →
      ∀ (k : Nat) (a : Int), 0 ≤ a → a % ns = (k : Int) % ns →
        assembleGo shape ns cells a = .ok (describeFrom shape ns cells k) := by
  intro cells
  induction cells with
  | nil => intro _ k a _ _; rfl
  | cons cell rest ih =>
    intro hv k a ha hak
    obtain ⟨hne, hcreate⟩ := hv cell (List.mem_cons_self _ _)
    have hrest : CellsValid shape rest := fun c hc => hv c (List.mem_cons_of_mem _ hc)
    have hns1 : ns ≠ -1 := by omega
    have hns0 : ns ≠ 0 := by omega
    have hcond : ¬(ns ≠ -1 ∧ ns = 0) := by omega
    have hemp : cell.isEmpty = false := by
      cases cell with
      | nil => exact absurd rfl hne
      | cons x y => rfl
    rw [assembleGo, if_neg hcond]
    simp only [if_pos hns1, hemp, Bool.false_eq_true, if_false]
    have hfmod : Int.fmod a ns = a % ns := Int.fmod_eq_emod a (le_of_lt hns)
    rw [hfmod, hcreate]
    have hnext : (a % ns + 1) % ns = ((k + 1 : Nat) : Int) % ns :=
      emod_shift (a % ns) (k := k)
        (by rw [Int.emod_emod_of_dvd _ dvd_rfl]; exact hak)
    have hnn : 0 ≤ a % ns + 1 := by
      have := Int.emod_nonneg a hns0
      omega
    rw [ih hrest (k + 1) (a % ns + 1) hnn hnext]
    have hsh : a % ns = shardAssign ns k := by
      rw [shardAssign, if_neg hns1, hak]
    rw [hsh]
    rfl

lemma computeSplits_hint_ok {shape hint : List Nat} (hshape : shape ≠ [])
    (hlen : hint.length = shape.length) (hpos : ∀ x ∈ hint, 0 < x)
    {ns : Int} (hns : ns = -1 ∨ 0 < ns) :
    computeSplits shape (some hint) ns =
      .ok (describeFrom shape ns (listProd (List.zipWith chunksOf shape hint)) 0) := by
  have hv : CellsValid shape (listProd (List.zipWith chunksOf shape hint)) :=
    cellsValid_of_dims hshape (zipWith_chunksOf_valid shape hint hlen)
  have hnozero : hint.any (fun x => decide (x = 0)) = false := by
    rw [List.any_eq_false]
    intro x hx
    simpa using Nat.pos_iff_ne_zero.mp (hpos x hx)
  rw [computeSplits, if_neg (by omega), if_neg (by simp [hnozero])]
  rcases hns with h | h
  · subst h
    exact assembleGo_unique shape _ hv 0
  · exact assembleGo_mod shape h _ hv 0 0 le_rfl rfl

lemma computeSplits_nohint_ok {shape : List Nat} (hshape : shape ≠ [])
    {ns : Int} (hns : ns = -1 ∨ 0 < ns) :
    computeSplits shape none ns =
      .ok (describeFrom shape ns (listProd (splitsNoHintSpec shape)) 0) := by
  have hv : CellsValid shape (listProd (splitsNoHintSpec shape)) :=
    cellsValid_of_dims hshape (splitsNoHintSpec_valid shape)
  have hemp : shape.isEmpty = false := by
    cases shape with
    | nil => exact absurd rfl hshape
    | cons a b => rfl
  rw [computeSplits, hemp]
  simp only [Bool.false_eq_true, if_false]
  rw [splitsNoHint_eq_spec]
  rcases hns with h | h
  · subst h
    exact assembleGo_unique shape _ hv 0
  · exact assembleGo_mod shape h _ hv 0 0 le_rfl rfl

/-- C3: for every shape of rank >= 1, compute_splits splits axis i into
contiguous chunks of tile_hint[i] elements (final chunk possibly shorter)
when a tile hint is given; otherwise it processes axes from innermost to
outermost carrying a running product w, using chunk size max(1, TILE_SIZE / w)
(integer division, TILE_SIZE = 100000) on each axis, then multiplying w by the
axis length; shards are assigned round-robin modulo num_shards when num_shards
is given (positive), and uniquely 0, 1, 2, ... when num_shards is the -1
sentinel. -/
theorem computeSplits_matches_spec (shape : List Nat) (hshape : shape ≠ [])
    (ns : Int) (hns : ns = -1 ∨ 0 < ns) :
    TILE_SIZE = 100000
    ∧ (∀ hint : List Nat, hint.length = shape.length → (∀ x ∈ hint, 0 < x) →
        computeSplits shape (some hint) ns =
          .ok (describeFrom shape ns (listProd (List.zipWith chunksOf shape hint)) 0))
    ∧ computeSplits shape none ns =
        .ok (describeFrom shape ns (listProd (splitsNoHintSpec shape)) 0) := by
  refine ⟨rfl, ?_, computeSplits_nohint_ok hshape hns⟩
  intro hint hlen hpos
  exact computeSplits_hint_ok hshape hlen hpos hns

/-- Witness for C3 at shape (5, 3), tile hint (2, 2), num_shards 3, and the
same shape without a hint (where TILE_SIZE / 3 = 33333 and TILE_SIZE / 1
exceed both axes, giving a single tile). -/
theorem computeSplits_matches_spec_witness :
    computeSplits [5, 3] (some [2, 2]) 3 =
      .ok (describeFrom [5, 3] 3 (listProd (List.zipWith chunksOf [5, 3] [2, 2])) 0)
    ∧ computeSplits [5, 3] none (-1) =
      .ok (describeFrom [5, 3] (-1) (listProd (splitsNoHintSpec [5, 3])) 0) :=
  ⟨((computeSplits_matches_spec [5, 3] (by decide) 3 (Or.inr (by decide))).2.1
      [2, 2] (by decide) (by decide)),
   (computeSplits_matches_spec [5, 3] (by decide) (-1) (Or.inl rfl)).2.2⟩

/-- C7 (amended): for the empty shape with tile_hint None, compute_splits
returns exactly one mapping whose single extent has empty ul and lr, assigned
to shard 0, for every value of num_shards. -/
theorem computeSplits_rank0_no_hint (ns : Int) :
    computeSplits [] none ns = .ok [(⟨[], [], []⟩, 0)] := rfl

/-- C7 counterexample: with the empty shape and an (empty) tile hint supplied,
compute_splits does not return the singleton mapping; it fails while unpacking
zip(*slc) for the empty cell, so the claim does not hold for every combination
of tile_hint and num_shards. -/
theorem computeSplits_rank0_with_hint_fails :
    computeSplits [] (some []) (-1) = .error "need more than 0 values to unpack" := rfl

/-- DistArray data (distarray.py lines 143-151): a shape plus the extent to
shard mapping; the Python dict is modelled as an association list in
iteration order. -/
structure DArr where
  shape : List Nat
  extents : List (TileExtent × Nat)
deriving DecidableEq

/-- Keys of the extents mapping, in iteration order. -/
def keysOf (a : DArr) : List TileExtent :=
  a.extents.map Prod.fst

/-- Dict lookup self.extents[k]: the first pair with an equal key. -/
def dlookup (m : List (TileExtent × Nat)) (k : TileExtent) : Option Nat :=
  (m.find? (fun p => decide (p.1 = k))).map Prod.snd

/-- Dict membership test (region in self.extents). -/
def containsKey (m : List (TileExtent × Nat)) (k : TileExtent) : Bool :=
  m.any (fun p => decide (p.1 = k))

/-- Key argument of a table.get call: either a plain extent (the selector
returns the whole tile) or a NestedSlice of an extent and a subslice
(distarray.py lines 35-52). -/
inductive TableKey where
  | exact (ex : TileExtent)
  | nested (ex : TileExtent) (subslice : List (Nat × Nat))
deriving DecidableEq

/-- One table.get RPC recorded by fetch: the shard ordinal, the key, and the
destination slice of the local buffer the returned slab is copied into (none
on the exact-match fast path, which returns the slab directly). -/
structure GetRPC where
  shard : Nat
  key : TableKey
  dst : Option (List (Nat × Nat))
deriving DecidableEq

/-- Bounds test of distarray.py line 188, np.all(region.lr less-or-equal
self.shape), for a region whose rank matches the array rank. -/
def boundsOk (region : TileExtent) (shape : List Nat) : Bool :=
  (List.zip region.lr shape).all (fun p => decide (p.1 ≤ p.2))

/-- Error-propagating map, modelling a Python for loop whose body may raise:
the first failure aborts the whole loop. -/
def mapEx (f : α → Except String β) : List α → Except String (List β)
  | [] => .ok []
  | x :: xs =>
    match f x with
    | .error e => .error e
    | .ok y =>
      match mapEx f xs with
      | .error e => .error e
      | .ok ys => .ok (y :: ys)

/-- Body of DistArray.fetch after the bounds assertion (distarray.py lines
190-207), recording the table.get calls it issues: the exact-match fast path
issues a single get keyed by the extent itself; otherwise one get per
overlapping extent, keyed by a NestedSlice of that extent and its offset
slice of the intersection, whose result is copied to the offset slice of the
region. -/
def fetchBody (a : DArr) (region : TileExtent) : Except String (List GetRPC) :=
  if containsKey a.extents region then
    match dlookup a.extents region with
    | some sh => .ok [⟨sh, .exact region, none⟩]
    | none => .error "KeyError"
  else
    mapEx (fun p =>
      match dlookup a.extents p.1 with
      | some sh => .ok ⟨sh, .nested p.1 (offsetSlice p.1 p.2), some (offsetSlice region p.2)⟩
      | none => .error "KeyError")
      (findOverlapping (keysOf a) region)

/-- DistArray.fetch (distarray.py lines 180-207): the bounds assertion runs
before any table access, so a failing assertion yields an error carrying no
RPCs. -/
def fetchTrace (a : DArr) (region : TileExtent) : Except String (List GetRPC) :=
  if boundsOk region a.shape then fetchBody a region
  else .error "fetch: region out of bounds"

/-- Tile value shipped by one table.update call, by constructor provenance:
tile.from_data(data) wraps the caller's data, tile.from_intersection builds a
tile shaped like its owner extent with the given slice of the caller's data
placed at the intersection's offset (tile.py is not under src/; the
meanings of the two constructors follow spec section 4.2). -/
inductive TileDesc where
  | fromData (shape : List Nat)
  | fromIntersection (owner isect : TileExtent) (srcSlice : List (Nat × Nat))
deriving DecidableEq

/-- Modelled from the spec: the shape of the tile each constructor builds
(spec section 4.2: from_data borrows the data's shape, from_intersection is
sized to the owner extent). -/
def TileDesc.tShape : TileDesc → List Nat
  | .fromData s => s
  | .fromIntersection owner _ _ => extShape owner

/-- Modelled from the spec: where the payload is positioned inside the built
tile (spec section 4.2: from_intersection places the data at the
intersection's offset inside the owner; from_data fills the whole tile). -/
def TileDesc.placedAt : TileDesc → Option (List (Nat × Nat))
  | .fromData _ => none
  | .fromIntersection owner isect _ => some (offsetSlice owner isect)

/-- One table.update RPC recorded by update: shard ordinal, destination key
and the tile description. -/
structure UpdRPC where
  shard : Nat
  key : TileExtent
  desc : TileDesc
deriving DecidableEq

/-- DistArray.update (distarray.py lines 213-233), recording the table.update
calls it issues: the shape assertion first, then the exact-match fast path
(one update with a fresh from_data tile), else one update per overlapping
extent with a from_intersection tile carrying the matching slice of the
data. -/
def updateTrace (a : DArr) (region : TileExtent) (dataShape : List Nat) :
    Except String (List UpdRPC) :=
  if extShape region ≠ dataShape then .error "Size of extent does not match size of data"
  else if containsKey a.extents region then
    match dlookup a.extents region with
    | some sh => .ok [⟨sh, region, .fromData dataShape⟩]
    | none => .error "KeyError"
  else
    mapEx (fun p =>
      match dlookup a.extents p.1 with
      | some sh => .ok ⟨sh, p.1, .fromIntersection p.1 p.2 (offsetSlice region p.2)⟩
      | none => .error "KeyError")
      (findOverlapping (keysOf a) region)

lemma mapEx_ok_map {f : α → Except String β} {g : α → β} :
    ∀ {xs : List α}, (∀ x ∈ xs, f x = .ok (g x)) → mapEx f xs = .ok (xs.map g) := by
  intro xs
  induction xs with
  | nil => intro _; rfl
  | cons x xs ih =>
    intro h
    rw [mapEx, h x (List.mem_cons_self _ _), ih (fun y hy => h y (List.mem_cons_of_mem _ hy))]
    rfl

lemma dlookup_isSome_of_mem {m : List (TileExtent × Nat)} {k : TileExtent}
    (h : ∃ p ∈ m, p.1 = k) : ∃ sh, dlookup m k = some sh := by
  obtain ⟨p, hp, hk⟩ := h
  have : (m.find? (fun q => decide (q.1 = k))).isSome := by
    rw [List.find?_isSome]
    exact ⟨p, hp, by simp [hk]⟩
  obtain ⟨q, hq⟩ := Option.isSome_iff_exists.mp this
  exact ⟨q.2, by rw [dlookup, hq]; rfl⟩

lemma dlookup_of_containsKey {m : List (TileExtent × Nat)} {k : TileExtent}
    (h : containsKey m k = true) : ∃ sh, dlookup m k = some sh := by
  rw [containsKey, List.any_eq_true] at h
  obtain ⟨p, hp, hk⟩ := h
  exact dlookup_isSome_of_mem ⟨p, hp, by simpa using hk⟩

lemma mem_findOverlapping_fst {exts : List TileExtent} {region : TileExtent}
    {p : TileExtent × TileExtent} (hp : p ∈ findOverlapping exts region) :
    p.1 ∈ exts := by
  rw [findOverlapping, List.mem_filterMap] at hp
  obtain ⟨ex, hex, hmap⟩ := hp
  rw [Option.map_eq_some'] at hmap
  obtain ⟨i, _, rfl⟩ := hmap
  exact hex

lemma dlookup_split {a : DArr} {region : TileExtent} {p : TileExtent × TileExtent}
    (hp : p ∈ findOverlapping (keysOf a) region) :
    dlookup a.extents p.1 = some ((dlookup a.extents p.1).getD 0) := by
  have hmem : p.1 ∈ keysOf a := mem_findOverlapping_fst hp
  rw [keysOf, List.mem_map] at hmem
  obtain ⟨q, hq, hqk⟩ := hmem
  obtain ⟨sh, hs⟩ := dlookup_isSome_of_mem ⟨q, hq, hqk⟩
  rw [hs]
  rfl

/-- C1: for every DistArray and in-bounds region, fetch issues exactly one
table.get keyed by the region itself when the region is a key of the extents
map; otherwise it issues, for each of the K pairs (ex, isect) returned by
find_overlapping, exactly one table.get keyed by NestedSlice(ex,
offset_slice(ex, isect)) whose result is copied into offset_slice(region,
isect) of the local buffer - K RPCs in total. -/
theorem fetch_issues_expected_rpcs (a : DArr) (region : TileExtent)
    (hb : boundsOk region a.shape = true) :
    (containsKey a.extents region = true →
      fetchTrace a region =
        .ok [⟨(dlookup a.extents region).getD 0, TableKey.exact region, none⟩])
    ∧ (containsKey a.extents region = false →
      fetchTrace a region =
        .ok ((findOverlapping (keysOf a) region).map (fun p =>
          ⟨(dlookup a.extents p.1).getD 0, TableKey.nested p.1 (offsetSlice p.1 p.2),
            some (offsetSlice region p.2)⟩))
      ∧ ∀ L, fetchTrace a region = Except.ok L →
          L.length = (findOverlapping (keysOf a) region).length) := by
  constructor
  · intro hmem
    obtain ⟨sh, hs⟩ := dlookup_of_containsKey hmem
    rw [fetchTrace, if_pos hb, fetchBody, if_pos hmem, hs]
    rfl
  · intro hmem
    have hmain : fetchTrace a region =
        .ok ((findOverlapping (keysOf a) region).map (fun p =>
          ⟨(dlookup a.extents p.1).getD 0, TableKey.nested p.1 (offsetSlice p.1 p.2),
            some (offsetSlice region p.2)⟩)) := by
      rw [fetchTrace, if_pos hb, fetchBody, if_neg (by simp [hmem])]
      refine mapEx_ok_map ?_
      intro p hp
      rw [dlookup_split hp]
      rfl
    refine ⟨hmain, ?_⟩
    intro L hL
    rw [hmain] at hL
    injection hL with hL
    rw [← hL, List.length_map]

/-- Witness for C1 on a shape (4,) array with two (2,)-tiles on shards 0 and
1: the exact region (0,2) issues one get keyed by the extent, and region
(1,3) issues two NestedSlice gets with the expected source and destination
slices. -/
theorem fetch_issues_expected_rpcs_witness :
    fetchTrace ⟨[4], [(⟨[0], [2], [4]⟩, 0), (⟨[2], [4], [4]⟩, 1)]⟩ ⟨[0], [2], [4]⟩ =
      .ok [⟨0, TableKey.exact ⟨[0], [2], [4]⟩, none⟩]
    ∧ fetchTrace ⟨[4], [(⟨[0], [2], [4]⟩, 0), (⟨[2], [4], [4]⟩, 1)]⟩ ⟨[1], [3], [4]⟩ =
      .ok [⟨0, TableKey.nested ⟨[0], [2], [4]⟩ [(1, 2)], some [(0, 1)]⟩,
           ⟨1, TableKey.nested ⟨[2], [4], [4]⟩ [(0, 1)], some [(1, 2)]⟩] :=
  ⟨(fetch_issues_expected_rpcs ⟨[4], [(⟨[0], [2], [4]⟩, 0), (⟨[2], [4], [4]⟩, 1)]⟩
      ⟨[0], [2], [4]⟩ (by rfl)).1 (by rfl),
   ((fetch_issues_expected_rpcs ⟨[4], [(⟨[0], [2], [4]⟩, 0), (⟨[2], [4], [4]⟩, 1)]⟩
      ⟨[1], [3], [4]⟩ (by rfl)).2 (by rfl)).1⟩

/-- C2: for every DistArray and region with data.shape equal to region.shape,
update issues one table.update with a fresh from_data tile to the extent's
shard on an exact match; otherwise one table.update per overlapping
(owner_ex, isect) with a from_intersection tile shaped like owner_ex carrying
data[offset_slice(region, isect)] placed at offset_slice(owner_ex, isect). -/
theorem update_issues_expected_rpcs (a : DArr) (region : TileExtent) (dataShape : List Nat)
    (hsh : extShape region = dataShape) :
    (containsKey a.extents region = true →
      updateTrace a region dataShape =
        .ok [⟨(dlookup a.extents region).getD 0, region, TileDesc.fromData dataShape⟩])
    ∧ (containsKey a.extents region = false →
      updateTrace a region dataShape =
        .ok ((findOverlapping (keysOf a) region).map (fun p =>
          ⟨(dlookup a.extents p.1).getD 0, p.1,
            TileDesc.fromIntersection p.1 p.2 (offsetSlice region p.2)⟩))
      ∧ ∀ p ∈ findOverlapping (keysOf a) region,
          (TileDesc.fromIntersection p.1 p.2 (offsetSlice region p.2)).tShape = extShape p.1
          ∧ (TileDesc.fromIntersection p.1 p.2 (offsetSlice region p.2)).placedAt =
              some (offsetSlice p.1 p.2)) := by
  have hok : ¬(extShape region ≠ dataShape) := by simp [hsh]
  constructor
  · intro hmem
    obtain ⟨sh, hs⟩ := dlookup_of_containsKey hmem
    rw [updateTrace, if_neg hok, if_pos hmem, hs]
    rfl
  · intro hmem
    constructor
    · rw [updateTrace, if_neg hok, if_neg (by simp [hmem])]
      refine mapEx_ok_map ?_
      intro p hp
      rw [dlookup_split hp]
      rfl
    · intro p _
      exact ⟨rfl, rfl⟩

/-- Witness for C2 on the same layout: an exact-match update on tile (2,4)
issues one from_data update to shard 1, and an update of region (1,3) issues
two from_intersection updates, one per owner tile. -/
theorem update_issues_expected_rpcs_witness :
    updateTrace ⟨[4], [(⟨[0], [2], [4]⟩, 0), (⟨[2], [4], [4]⟩, 1)]⟩ ⟨[2], [4], [4]⟩ [2] =
      .ok [⟨1, ⟨[2], [4], [4]⟩, TileDesc.fromData [2]⟩]
    ∧ updateTrace ⟨[4], [(⟨[0], [2], [4]⟩, 0), (⟨[2], [4], [4]⟩, 1)]⟩ ⟨[1], [3], [4]⟩ [2] =
      .ok [⟨0, ⟨[0], [2], [4]⟩, TileDesc.fromIntersection ⟨[0], [2], [4]⟩ ⟨[1], [2], [4]⟩ [(0, 1)]⟩,
           ⟨1, ⟨[2], [4], [4]⟩, TileDesc.fromIntersection ⟨[2], [4], [4]⟩ ⟨[2], [3], [4]⟩ [(1, 2)]⟩] :=
  ⟨(update_issues_expected_rpcs ⟨[4], [(⟨[0], [2], [4]⟩, 0), (⟨[2], [4], [4]⟩, 1)]⟩
      ⟨[2], [4], [4]⟩ [2] (by rfl)).1 (by rfl),
   ((update_issues_expected_rpcs ⟨[4], [(⟨[0], [2], [4]⟩, 0), (⟨[2], [4], [4]⟩, 1)]⟩
      ⟨[1], [3], [4]⟩ [2] (by rfl)).2 (by rfl)).1⟩

lemma all_zip_le_iff :
    ∀ (xs ys : List Nat), xs.length = ys.length →
      (((List.zip xs ys).all (fun p => decide (p.1 ≤ p.2))) = true ↔
        ∀ i, i < ys.length → xs.getD i 0 ≤ ys.getD i 0) := by
  intro xs
  induction xs with
  | nil =>
    intro ys hlen
    cases ys with
    | nil => simp
    | cons y ys => simp at hlen
  | cons x xs ih =>
    intro ys hlen
    cases ys with
    | nil => simp at hlen
    | cons y ys =>
      simp only [List.zip_cons_cons, List.all_cons, Bool.and_eq_true, decide_eq_true_eq]
      rw [ih ys (by simpa using hlen)]
      constructor
      · rintro ⟨hxy, hrest⟩ i hi
        cases i with
        | zero => simpa using hxy
        | succ j =>
          simp only [List.getD_cons_succ]
          exact hrest j (by simpa using hi)
      · intro h
        refine ⟨by simpa using h 0 (by simp), ?_⟩
        intro j hj
        have := h (j + 1) (by simpa using hj)
        simpa using this

/-- C10: DistArray.fetch checks the region against the array bounds before
any table access: a region exceeding the shape on some axis fails with an
assertion error carrying no table.get, and a region within bounds on every
axis passes the check and proceeds to the fetch body. -/
theorem fetch_bounds_check (a : DArr) (region : TileExtent)
    (hlen : region.lr.length = a.shape.length) :
    ((∃ i, i < a.shape.length ∧ a.shape.getD i 0 < region.lr.getD i 0) →
      fetchTrace a region = .error "fetch: region out of bounds")
    ∧ ((∀ i, i < a.shape.length → region.lr.getD i 0 ≤ a.shape.getD i 0) →
      fetchTrace a region = fetchBody a region) := by
  have hiff := all_zip_le_iff region.lr a.shape hlen
  constructor
  · rintro ⟨i, hi, hgt⟩
    have hfalse : boundsOk region a.shape = false := by
      cases hbo : boundsOk region a.shape with
      | false => rfl
      | true =>
        have := (hiff.mp hbo) i hi
        omega
    rw [fetchTrace, hfalse]
    rfl
  · intro h
    have hb2 : boundsOk region a.shape = true := hiff.mpr h
    rw [fetchTrace, if_pos hb2]

/-- Witness for C10 on the shape (4,) array: region (0,5) is rejected before
any RPC, while region (1,3) passes the bounds check. -/
theorem fetch_bounds_check_witness :
    fetchTrace ⟨[4], [(⟨[0], [4], [4]⟩, 0)]⟩ ⟨[0], [5], [4]⟩ =
      .error "fetch: region out of bounds"
    ∧ fetchTrace ⟨[4], [(⟨[0], [4], [4]⟩, 0)]⟩ ⟨[1], [3], [4]⟩ =
      fetchBody ⟨[4], [(⟨[0], [4], [4]⟩, 0)]⟩ ⟨[1], [3], [4]⟩ :=
  ⟨(fetch_bounds_check ⟨[4], [(⟨[0], [4], [4]⟩, 0)]⟩ ⟨[0], [5], [4]⟩ (by rfl)).1
      ⟨0, by decide, by decide⟩,
   (fetch_bounds_check ⟨[4], [(⟨[0], [4], [4]⟩, 0)]⟩ ⟨[1], [3], [4]⟩ (by rfl)).2
      (by decide)⟩

/-- Counts dict of best_locality (distarray.py lines 308-311), modelled as an
association list kept in ascending key order: the keys are small nonnegative
shard ids, for which a CPython 2 dict (hash(int) = int) iterates in ascending
order, which is the order counts.items() presents to sorted(). -/
def upsertAdd : List (Nat × Nat) → Nat → Nat → List (Nat × Nat)
  | [], k, v => [(k, v)]
  | (k1, v1) :: rest, k, v =>
    if k < k1 then (k, v) :: (k1, v1) :: rest
    else if k = k1 then (k1, v1 + v) :: rest
    else (k1, v1) :: upsertAdd rest k v

/-- Accumulation loop of best_locality: counts[shard] += overlap.size for each
overlapping extent in order. -/
def accumCounts : List (Nat × Nat) → List (Nat × Nat) → List (Nat × Nat)
  | acc, [] => acc
  | acc, q :: rest => accumCounts (upsertAdd acc q.1 q.2) rest

/-- Single insertion step of an ascending stable sort by the count
component. -/
def insCnt (x : Nat × Nat) : List (Nat × Nat) → List (Nat × Nat)
  | [] => [x]
  | y :: ys => if x.2 ≤ y.2 then x :: y :: ys else y :: insCnt x ys

/-- Python sorted(..., key=lambda kv: kv[1]): ascending stable sort by
count. -/
def sortCnt : List (Nat × Nat) → List (Nat × Nat)
  | [] => []
  | x :: xs => insCnt x (sortCnt xs)

/-- best_locality (distarray.py lines 301-314): tally the overlap sizes per
shard over the overlapping extents, sort the (shard, count) items ascending
by count, and return the shard of the last item (s_counts[-1][0]); an empty
overlap set raises IndexError. -/
def bestLocality (a : DArr) (ex : TileExtent) : Except String Nat :=
  match mapEx (fun p =>
      match dlookup a.extents p.1 with
      | some sh => Except.ok (sh, extSize p.2)
      | none => Except.error "KeyError")
    (findOverlapping (keysOf a) ex) with
  | .error e => .error e
  | .ok pairs =>
    match (sortCnt (accumCounts [] pairs)).getLast? with
    | some kv => .ok kv.1
    | none => .error "list index out of range"

/-- Total element overlap of a shard with a region: the sum of intersection
sizes over the overlapping extents owned by that shard. -/
def overlapSum (a : DArr) (splits : List (TileExtent × TileExtent)) (j : Nat) : Nat :=
  (splits.map (fun p => if dlookup a.extents p.1 = some j then extSize p.2 else 0)).sum

/-- Total element overlap of shard j with the region, over all overlapping
extents of the array. -/
def totalOverlap (a : DArr) (region : TileExtent) (j : Nat) : Nat :=
  overlapSum a (findOverlapping (keysOf a) region) j

/-- Count lookup with default 0, the read view of the counts dict. -/
def lookupCnt (l : List (Nat × Nat)) (k : Nat) : Nat :=
  match l.find? (fun p => decide (p.1 = k)) with
  | some p => p.2
  | none => 0

/-- Sum of the counts recorded for key k in a pair list. -/
def sumOf (P : List (Nat × Nat)) (k : Nat) : Nat :=
  (P.map (fun q => if q.1 = k then q.2 else 0)).sum

/-- Ascending strict key order, the invariant of the counts list. -/
def KeysAsc (l : List (Nat × Nat)) : Prop :=
  l.Pairwise (fun p q => p.1 < q.1)

lemma keys_upsertAdd : ∀ (l : List (Nat × Nat)) (k v : Nat),
    ∀ p ∈ upsertAdd l k v, p.1 = k ∨ ∃ q ∈ l, q.1 = p.1 := by
  intro l
  induction l with
  | nil =>
    intro k v p hp
    simp [upsertAdd] at hp
    subst hp
    exact Or.inl rfl
  | cons q1 rest ih =>
    intro k v p hp
    obtain ⟨k1, v1⟩ := q1
    rw [upsertAdd] at hp
    by_cases h1 : k < k1
    · rw [if_pos h1] at hp
      rcases List.mem_cons.mp hp with h | h
      · exact Or.inl (by rw [h])
      · rcases List.mem_cons.mp h with h2 | h2
        · exact Or.inr ⟨(k1, v1), List.mem_cons_self _ _, by rw [h2]⟩
        · exact Or.inr ⟨p, List.mem_cons_of_mem _ h2, rfl⟩
    · rw [if_neg h1] at hp
      by_cases h2 : k = k1
      · rw [if_pos h2] at hp
        rcases List.mem_cons.mp hp with h | h
        · exact Or.inl (by rw [h, h2])
        · exact Or.inr ⟨p, List.mem_cons_of_mem _ h, rfl⟩
      · rw [if_neg h2] at hp
        rcases List.mem_cons.mp hp with h | h
        · exact Or.inr ⟨(k1, v1), List.mem_cons_self _ _, by rw [h]⟩
        · rcases ih k v p h with h3 | ⟨q, hq, hk⟩
          · exact Or.inl h3
          · exact Or.inr ⟨q, List.mem_cons_of_mem _ hq, hk⟩

lemma keysAsc_upsertAdd : ∀ (l : List (Nat × Nat)) (k v : Nat),
    KeysAsc l → KeysAsc (upsertAdd l k v) := by
  intro l
  induction l with
  | nil => intro k v _; simp [upsertAdd, KeysAsc]
  | cons q1 rest ih =>
    intro k v h
    obtain ⟨k1, v1⟩ := q1
    rw [KeysAsc, List.pairwise_cons] at h
    obtain ⟨hhead, htail⟩ := h
    rw [upsertAdd]
    by_cases h1 : k < k1
    · rw [if_pos h1, KeysAsc, List.pairwise_cons]
      refine ⟨?_, ?_⟩
      · intro p hp
        rcases List.mem_cons.mp hp with h2 | h2
        · rw [h2]; exact h1
        · exact lt_trans h1 (hhead p h2)
      · rw [List.pairwise_cons]
        exact ⟨hhead, htail⟩
    · rw [if_neg h1]
      by_cases h2 : k = k1
      · rw [if_pos h2, KeysAsc, List.pairwise_cons]
        exact ⟨hhead, htail⟩
      · rw [if_neg h2, KeysAsc, List.pairwise_cons]
        refine ⟨?_, ih k v htail⟩
        intro p hp
        have hk1k : k1 < k := by omega
        rcases keys_upsertAdd rest k v p hp with h3 | ⟨q, hq, hk⟩
        · rw [h3]; exact hk1k
        · rw [← hk]; exact hhead q hq

lemma lookupCnt_cons (k1 v1 k : Nat) (rest : List (Nat × Nat)) :
    lookupCnt ((k1, v1) :: rest) k = if k1 = k then v1 else lookupCnt rest k := by
  by_cases h : k1 = k
  · rw [if_pos h, lookupCnt, List.find?_cons_of_pos _ (by simpa using h)]
  · rw [if_neg h, lookupCnt, List.find?_cons_of_neg _ (by simpa using h)]
    rfl

lemma lookupCnt_not_mem {l : List (Nat × Nat)} {k : Nat}
    (h : ∀ q ∈ l, q.1 ≠ k) : lookupCnt l k = 0 := by
  rw [lookupCnt, List.find?_eq_none.mpr (by intro q hq; simpa using h q hq)]

lemma lookupCnt_upsertAdd : ∀ (l : List (Nat × Nat)) (k v j : Nat), KeysAsc l →
    lookupCnt (upsertAdd l k v) j = lookupCnt l j + (if j = k then v else 0) := by
  intro l
  induction l with
  | nil =>
    intro k v j _
    rw [upsertAdd, lookupCnt_cons]
    by_cases h : j = k
    · rw [if_pos h, if_pos (by omega)]
      simp [lookupCnt]
    · rw [if_neg h, if_neg (by omega)]
      simp [lookupCnt]
  | cons q1 rest ih =>
    intro k v j h
    obtain ⟨k1, v1⟩ := q1
    rw [KeysAsc, List.pairwise_cons] at h
    obtain ⟨hhead, htail⟩ := h
    rw [upsertAdd]
    by_cases h1 : k < k1
    · rw [if_pos h1, lookupCnt_cons, lookupCnt_cons]
      by_cases h2 : j = k
      · have hz : lookupCnt rest j = 0 :=
          lookupCnt_not_mem (fun q hq => by have := hhead q hq; omega)
        split_ifs <;> omega
      · split_ifs <;> omega
    · rw [if_neg h1]
      by_cases h2 : k = k1
      · rw [if_pos h2, lookupCnt_cons, lookupCnt_cons]
        split_ifs <;> omega
      · rw [if_neg h2, lookupCnt_cons, lookupCnt_cons, ih k v j htail]
        split_ifs <;> omega

lemma accumCounts_spec : ∀ (P acc : List (Nat × Nat)), KeysAsc acc →
    KeysAsc (accumCounts acc P)
    ∧ ∀ j, lookupCnt (accumCounts acc P) j = lookupCnt acc j + sumOf P j := by
  intro P
  induction P with
  | nil =>
    intro acc h
    exact ⟨h, fun j => by simp [accumCounts, sumOf]⟩
  | cons q rest ih =>
    intro acc h
    have h2 := keysAsc_upsertAdd acc q.1 q.2 h
    obtain ⟨ha, hl⟩ := ih (upsertAdd acc q.1 q.2) h2
    have heq : accumCounts acc (q :: rest) = accumCounts (upsertAdd acc q.1 q.2) rest := rfl
    refine ⟨by rw [heq]; exact ha, ?_⟩
    intro j
    rw [heq, hl j, lookupCnt_upsertAdd acc q.1 q.2 j h]
    simp only [sumOf, List.map_cons, List.sum_cons]
    split_ifs <;> omega

lemma entry_eq_lookupCnt : ∀ (l : List (Nat × Nat)) (k v : Nat), KeysAsc l →
    (k, v) ∈ l → lookupCnt l k = v := by
  intro l
  induction l with
  | nil => intro k v _ h; simp at h
  | cons q1 rest ih =>
    intro k v h hmem
    obtain ⟨k1, v1⟩ := q1
    rw [KeysAsc, List.pairwise_cons] at h
    obtain ⟨hhead, htail⟩ := h
    rw [lookupCnt_cons]
    rcases List.mem_cons.mp hmem with h2 | h2
    · injection h2 with ha hb
      rw [if_pos ha.symm, hb]
    · have : k1 ≠ k := by
        have := hhead (k, v) h2
        omega
      rw [if_neg this]
      exact ih k v htail h2

lemma mem_insCnt {z x : Nat × Nat} : ∀ {l : List (Nat × Nat)},
    z ∈ insCnt x l ↔ z = x ∨ z ∈ l := by
  intro l
  induction l with
  | nil => simp [insCnt]
  | cons y ys ih =>
    rw [insCnt]
    by_cases h : x.2 ≤ y.2
    · rw [if_pos h]
      simp [List.mem_cons]
    · rw [if_neg h]
      simp only [List.mem_cons, ih]
      tauto

lemma mem_sortCnt {z : Nat × Nat} : ∀ {l : List (Nat × Nat)}, z ∈ sortCnt l ↔ z ∈ l := by
  intro l
  induction l with
  | nil => simp [sortCnt]
  | cons x xs ih =>
    rw [sortCnt, mem_insCnt]
    simp [List.mem_cons, ih]

lemma pairwise_insCnt {x : Nat × Nat} : ∀ {l : List (Nat × Nat)},
    l.Pairwise (fun p q => p.2 ≤ q.2) → (insCnt x l).Pairwise (fun p q => p.2 ≤ q.2) := by
  intro l
  induction l with
  | nil => intro _; simp [insCnt]
  | cons y ys ih =>
    intro h
    rw [List.pairwise_cons] at h
    obtain ⟨hhead, htail⟩ := h
    rw [insCnt]
    by_cases hle : x.2 ≤ y.2
    · rw [if_pos hle, List.pairwise_cons]
      refine ⟨?_, ?_⟩
      · intro p hp
        rcases List.mem_cons.mp hp with h2 | h2
        · rw [h2]; exact hle
        · exact le_trans hle (hhead p h2)
      · rw [List.pairwise_cons]
        exact ⟨hhead, htail⟩
    · rw [if_neg hle, List.pairwise_cons]
      refine ⟨?_, ih htail⟩
      intro p hp
      rcases mem_insCnt.mp hp with h2 | h2
      · rw [h2]; omega
      · exact hhead p h2

lemma pairwise_sortCnt : ∀ (l : List (Nat × Nat)),
    (sortCnt l).Pairwise (fun p q => p.2 ≤ q.2) := by
  intro l
  induction l with
  | nil => simp [sortCnt]
  | cons x xs ih => exact pairwise_insCnt ih

lemma mem_of_getLast?_eq {l : List α} {m : α} (hm : l.getLast? = some m) : m ∈ l := by
  obtain ⟨hne, heq⟩ := List.mem_getLast?_eq_getLast (Option.mem_def.mpr hm)
  rw [heq]
  exact List.getLast_mem hne

lemma getLast?_max {l : List (Nat × Nat)} {m : Nat × Nat}
    (hs : l.Pairwise (fun p q => p.2 ≤ q.2)) (hm : l.getLast? = some m) :
    ∀ z ∈ l, z.2 ≤ m.2 := by
  induction l with
  | nil => simp at hm
  | cons x rest ih =>
    rw [List.pairwise_cons] at hs
    obtain ⟨hhead, htail⟩ := hs
    intro z hz
    cases rest with
    | nil =>
      simp at hm
      rcases List.mem_singleton.mp hz with rfl
      rw [hm]
    | cons y ys =>
      rw [List.getLast?_cons_cons] at hm
      have hmmem : m ∈ y :: ys := mem_of_getLast?_eq hm
      rcases List.mem_cons.mp hz with h2 | h2
      · rw [h2]
        exact le_trans (hhead m hmmem) le_rfl
      · exact ih htail hm z h2

lemma mapEx_pairs_sum {a : DArr} :
    ∀ (splits : List (TileExtent × TileExtent)) (P : List (Nat × Nat)),
      mapEx (fun p =>
        match dlookup a.extents p.1 with
        | some sh => Except.ok (sh, extSize p.2)
        | none => Except.error "KeyError") splits = .ok P →
      ∀ j, sumOf P j = overlapSum a splits j := by
  intro splits
  induction splits with
  | nil =>
    intro P h j
    rw [mapEx] at h
    injection h with h
    rw [← h]
    simp [sumOf, overlapSum]
  | cons x xs ih =>
    intro P h j
    rw [mapEx] at h
    cases hdl : dlookup a.extents x.1 with
    | none => rw [hdl] at h; exact absurd h (by simp)
    | some sh =>
      rw [hdl] at h
      cases hxs : mapEx (fun p =>
          match dlookup a.extents p.1 with
          | some sh => Except.ok (sh, extSize p.2)
          | none => Except.error "KeyError") xs with
      | error e => rw [hxs] at h; exact absurd h (by simp)
      | ok ys =>
        rw [hxs] at h
        injection h with h
        rw [← h]
        rw [sumOf, List.map_cons, List.sum_cons]
        rw [overlapSum, List.map_cons, List.sum_cons, hdl]
        have hrest := ih ys hxs j
        rw [sumOf] at hrest
        rw [overlapSum] at hrest
        rw [hrest]
        by_cases h2 : sh = j
        · rw [if_pos h2, if_pos (by simp [h2])]
        · rw [if_neg h2, if_neg (by simp [h2])]

/-- C6 (amended): best_locality returns a shard whose total element overlap
with the region is maximal among all shards; the tie-break picks the last
maximal entry in the counts dict iteration order (the highest shard id under
ascending iteration), not the lowest. -/
theorem bestLocality_returns_max_overlap_shard (a : DArr) (ex : TileExtent) (s : Nat)
    (h : bestLocality a ex = .ok s) :
    ∀ sh2 : Nat, totalOverlap a ex sh2 ≤ totalOverlap a ex s := by
  intro sh2
  rw [bestLocality] at h
  cases hP : mapEx (fun p =>
      match dlookup a.extents p.1 with
      | some sh => Except.ok (sh, extSize p.2)
      | none => Except.error "KeyError") (findOverlapping (keysOf a) ex) with
  | error e => rw [hP] at h; exact absurd h (by simp)
  | ok P =>
    rw [hP] at h
    have h2 : (match (sortCnt (accumCounts [] P)).getLast? with
        | some kv => (Except.ok kv.1 : Except String Nat)
        | none => Except.error "list index out of range") = Except.ok s := h
    clear h
    cases hLast : (sortCnt (accumCounts [] P)).getLast? with
    | none => rw [hLast] at h2; exact absurd h2 (by simp)
    | some kv =>
      rw [hLast] at h2
      injection h2 with h
      obtain ⟨hKA, hLook⟩ := accumCounts_spec P [] (by rw [KeysAsc]; exact List.Pairwise.nil)
      have hLook0 : ∀ j, lookupCnt (accumCounts [] P) j = sumOf P j := by
        intro j
        rw [hLook j]
        simp [lookupCnt]
      have hsum := mapEx_pairs_sum (findOverlapping (keysOf a) ex) P hP
      have hkvmem : kv ∈ accumCounts [] P := mem_sortCnt.mp (mem_of_getLast?_eq hLast)
      have hkv2 : lookupCnt (accumCounts [] P) kv.1 = kv.2 :=
        entry_eq_lookupCnt _ kv.1 kv.2 hKA (by
          have : (kv.1, kv.2) = kv := rfl
          rw [this]
          exact hkvmem)
      have hts : totalOverlap a ex s = kv.2 := by
        rw [totalOverlap, ← hsum s, ← hLook0 s, ← h]
        exact hkv2
      rw [hts, totalOverlap, ← hsum sh2, ← hLook0 sh2]
      cases hfind : (accumCounts [] P).find? (fun p => decide (p.1 = sh2)) with
      | none =>
        rw [lookupCnt, hfind]
        exact Nat.zero_le _
      | some q =>
        rw [lookupCnt, hfind]
        have hqmem : q ∈ accumCounts [] P := List.mem_of_find?_eq_some hfind
        exact getLast?_max (pairwise_sortCnt _) hLast q (mem_sortCnt.mpr hqmem)

/-- Witness for C6 on the shape (4,) array with tiles (0,2) on shard 0 and
(2,4) on shard 1 and region (1,4): shard 1 overlaps 2 elements, shard 0 only
1, and best_locality returns shard 1. -/
theorem bestLocality_returns_max_overlap_shard_witness :
    totalOverlap ⟨[4], [(⟨[0], [2], [4]⟩, 0), (⟨[2], [4], [4]⟩, 1)]⟩ ⟨[1], [4], [4]⟩ 0 ≤
      totalOverlap ⟨[4], [(⟨[0], [2], [4]⟩, 0), (⟨[2], [4], [4]⟩, 1)]⟩ ⟨[1], [4], [4]⟩ 1 :=
  bestLocality_returns_max_overlap_shard
    ⟨[4], [(⟨[0], [2], [4]⟩, 0), (⟨[2], [4], [4]⟩, 1)]⟩ ⟨[1], [4], [4]⟩ 1 (by rfl) 0

/-- C6 counterexample: with tiles (0,2) on shard 0 and (2,4) on shard 1 and
region (0,4), both shards overlap exactly 2 elements (a tie), yet
best_locality returns shard 1, not the lowest tied shard id 0. -/
theorem bestLocality_tie_returns_highest :
    totalOverlap ⟨[4], [(⟨[0], [2], [4]⟩, 0), (⟨[2], [4], [4]⟩, 1)]⟩ ⟨[0], [4], [4]⟩ 0 =
      totalOverlap ⟨[4], [(⟨[0], [2], [4]⟩, 0), (⟨[2], [4], [4]⟩, 1)]⟩ ⟨[0], [4], [4]⟩ 1
    ∧ 0 < totalOverlap ⟨[4], [(⟨[0], [2], [4]⟩, 0), (⟨[2], [4], [4]⟩, 1)]⟩ ⟨[0], [4], [4]⟩ 0
    ∧ bestLocality ⟨[4], [(⟨[0], [2], [4]⟩, 0), (⟨[2], [4], [4]⟩, 1)]⟩ ⟨[0], [4], [4]⟩ =
        .ok 1 :=
  ⟨by decide, by decide, by rfl⟩

/-- Modelled from the spec: row-major linearization, sum of p[i] times the
product of the trailing axis lengths (spec section 4.1, ravelled_pos). -/
def ravelledPos : List Nat → List Nat → Nat
  | [], _ => 0
  | _ :: _, [] => 0
  | p :: ps, _ :: ss => p * ss.prod + ravelledPos ps ss

/-- Modelled from the spec: inverse of the row-major linearization (spec
section 4.1, unravelled_pos). -/
def unravelledPos : Nat → List Nat → List Nat
  | _, [] => []
  | k, _ :: ss => (k / ss.prod) :: unravelledPos (k % ss.prod) ss

/-- Modelled from the spec: find_rect (spec section 4.1) returns the smallest
rectangle whose row-major ravel covers the contiguous range [rul, rlr],
computed here as the bounding box of the unravelled points of the range; the
corners are returned in ravelled form, as consumed by Reshape.fetch
(reshape.py lines 240-246). -/
def findRect (rul rlr : Nat) (shape : List Nat) : Nat × Nat :=
  match (List.range (rlr - rul + 1)).map (fun j => unravelledPos (rul + j) shape) with
  | [] => (rul, rlr)
  | p0 :: rest =>
    (ravelledPos (rest.foldl (fun acc q => List.zipWith min acc q) p0) shape,
     ravelledPos (rest.foldl (fun acc q => List.zipWith max acc q) p0) shape)

/-- Modelled from the spec: the per-axis splits of spec section 4.3 as used by
Reshape._check_extents (reshape.py line 171) through the newer
distarray.compute_splits, which is not under src/; its per-axis chunking is
the tile-hint loop of distarray.py lines 97-103, and the product over axes is
taken by the caller. -/
def computeSplitDims (shape hint : List Nat) : Except String (List (List (Nat × Nat))) :=
  if hint.length ≠ shape.length then .error "dimensions in tile hint does not match shape"
  else if hint.any (fun x => decide (x = 0)) then .error "range step argument must not be zero"
  else .ok (List.zipWith chunksOf shape hint)

/-- Loop of Reshape._check_extents (reshape.py lines 173-179) over the product
cells, carrying the current _same_tiles flag.  The Python 2 condition on line
177 reads rect_ul or ul or rect_lr != lr, where rect_ul is an integer (truthy
iff nonzero), ul is a tuple (truthy iff nonempty), and rect_lr != lr compares
an integer against a tuple, which is always True in Python 2; the trailing
Boolean true models that last comparison. -/
def checkLoop (baseShape newShape : List Nat) (flag : Bool) :
    List (List (Nat × Nat)) → Except String Bool
  | [] => .ok flag
  | cell :: rest =>
    if cell.isEmpty then .error "need more than 0 values to unpack"
    else
      let ul := cell.map Prod.fst
      let lr := cell.map Prod.snd
      let rul := ravelledPos ul newShape
      let rlr := ravelledPos (lr.map (fun x => x - 1)) newShape
      let r := findRect rul rlr baseShape
      if decide (r.1 ≠ 0) || !ul.isEmpty || true then .ok false
      else checkLoop baseShape newShape flag rest

/-- Reshape._check_extents (reshape.py lines 152-179): the flag starts true;
when the new shape is longer than the base shape and the base shape is a
prefix of the new shape, the add-dimension shortcut returns true; otherwise
(also when that prefix test fails, which clears the flag without returning)
the product cells of the new shape tiling are scanned by checkLoop.  The tile
shape argument stands for self._tile_shape (good_tile_shape is not under
src/). -/
def checkExtents (baseShape newShape tileShape : List Nat) : Except String Bool :=
  if newShape.length > baseShape.length then
    if (List.range baseShape.length).all
        (fun i => decide (baseShape.getD i 0 = newShape.getD i 0)) then
      .ok true
    else
      match computeSplitDims newShape tileShape with
      | .error e => .error e
      | .ok dims => checkLoop baseShape newShape false (listProd dims)
  else
    match computeSplitDims newShape tileShape with
    | .error e => .error e
    | .ok dims => checkLoop baseShape newShape true (listProd dims)

/-- Modelled from the spec: the fast-path test of spec section 4.8 - every
new-shape tile's ravelled range must reconstruct to an exact rectangle in the
base, i.e. find_rect returns the tile's own ravelled bounds for every product
cell of the new shape tiling. -/
def checkExtentsSpec (baseShape newShape tileShape : List Nat) : Bool :=
  match computeSplitDims newShape tileShape with
  | .error _ => false
  | .ok dims =>
    (listProd dims).all (fun cell =>
      let rul := ravelledPos (cell.map Prod.fst) newShape
      let rlr := ravelledPos ((cell.map Prod.snd).map (fun x => x - 1)) newShape
      decide (findRect rul rlr baseShape = (rul, rlr)))

/-- Add-dimension detection loop of Reshape.__init__ (reshape.py lines
136-148), over the indices of the base shape, carrying the extra offset and
the recorded new dimension index; returns the final is_add_dimension flag and
index. -/
def addDimLoop (baseShape newShape : List Nat) :
    List Nat → Nat → Option Nat → Bool × Option Nat
  | [], extra, idxOpt =>
    (true, if extra = 0 then some (newShape.length - 1) else idxOpt)
  | i :: rest, extra, idxOpt =>
    if newShape.getD (i + extra) 0 ≠ baseShape.getD i 0 then
      (if extra = 0 ∧ newShape.getD i 0 = 1 then addDimLoop baseShape newShape rest 1 (some i)
       else (false, idxOpt))
    else addDimLoop baseShape newShape rest extra idxOpt

/-- State recorded by Reshape.__init__ that the claims refer to. -/
structure ReshapeState where
  shape : List Nat
  baseShape : List Nat
  isAddDimension : Bool
  newDimensionIdx : Option Nat
  sameTiles : Bool
deriving DecidableEq

/-- Success test for an Except value. -/
def isOkE : Except String α → Bool
  | .ok _ => true
  | .error _ => false

/-- Reshape.__init__ (reshape.py lines 122-150): records the add-dimension
detection and runs _check_extents; the constructor performs no size
validation of any kind.  The tile shape argument stands for the
good_tile_shape result assigned to self._tile_shape. -/
def reshapeInit (baseShape newShape tileShape : List Nat) : Except String ReshapeState :=
  let ad := if newShape.length = baseShape.length + 1 then
      addDimLoop baseShape newShape (List.range baseShape.length) 0 none
    else (false, none)
  match checkExtents baseShape newShape tileShape with
  | .error e => .error e
  | .ok same => .ok ⟨newShape, baseShape, ad.1, ad.2, same⟩

/-- C4: on the identity retiling of a shape (4,) array into shape (4,) with
tile shape (2,), every new-shape tile's ravelled range reconstructs exactly
(the spec-side test holds), yet _check_extents clears the same-tiles flag:
the Python 2 condition rect_ul or ul or rect_lr != lr is always true for a
rank >= 1 tile, so the fast path is never taken and foreach_tile
materializes a shape_array even for exact retilings, contrary to the
function's own docstring and the spec. -/
theorem checkExtents_clears_flag_on_exact_retile :
    checkExtentsSpec [4] [4] [2] = true
    ∧ checkExtents [4] [4] [2] = .ok false :=
  ⟨by decide, by rfl⟩

/-- C5 counterexample: with base shape (4,) and new shape (3,), the element
counts differ, yet Reshape.__init__ completes without any error - there is
no size validation and no ReshapeSizeMismatch failure at construction. -/
theorem reshapeInit_no_size_check :
    List.prod [3] ≠ List.prod [4]
    ∧ isOkE (reshapeInit [4] [3] [2]) = true :=
  ⟨by decide, by rfl⟩

lemma checkLoop_cons (b n : List Nat) (flag : Bool) (c : List (Nat × Nat))
    (rest : List (List (Nat × Nat))) (hc : c ≠ []) :
    checkLoop b n flag (c :: rest) = .ok false := by
  rw [checkLoop]
  have hemp : c.isEmpty = false := by
    cases c with
    | nil => exact absurd rfl hc
    | cons x y => rfl
  rw [hemp]
  simp

lemma checkExtents_isOk (baseShape newShape tileShape : List Nat)
    (h1 : newShape ≠ []) (h2 : tileShape.length = newShape.length)
    (h3 : ∀ x ∈ tileShape, 0 < x) :
    ∃ b, checkExtents baseShape newShape tileShape = .ok b := by
  have hdims : computeSplitDims newShape tileShape =
      .ok (List.zipWith chunksOf newShape tileShape) := by
    rw [computeSplitDims, if_neg (by omega)]
    have hz : (tileShape.any fun x => decide (x = 0)) = false := by
      rw [List.any_eq_false]
      intro x hx
      simpa using Nat.pos_iff_ne_zero.mp (h3 x hx)
    rw [hz]
    simp
  have hcell : ∀ flag : Bool, ∃ r, checkLoop baseShape newShape flag
      (listProd (List.zipWith chunksOf newShape tileShape)) = .ok r := by
    intro flag
    cases hcells : listProd (List.zipWith chunksOf newShape tileShape) with
    | nil => exact ⟨flag, rfl⟩
    | cons c rest =>
      refine ⟨false, checkLoop_cons _ _ _ _ _ ?_⟩
      have hmem : c ∈ listProd (List.zipWith chunksOf newShape tileShape) := by
        rw [hcells]
        exact List.mem_cons_self _ _
      have hf := mem_listProd hmem
      have hlen := forall₂_length_right hf
      intro hnil
      subst hnil
      rw [List.length_nil] at hlen
      have hzl : (List.zipWith chunksOf newShape tileShape).length = newShape.length := by
        rw [List.length_zipWith, h2, Nat.min_self]
      rw [hzl] at hlen
      exact h1 (List.length_eq_zero.mp hlen.symm)
  rw [checkExtents]
  by_cases hgt : newShape.length > baseShape.length
  · rw [if_pos hgt]
    by_cases hpre : ((List.range baseShape.length).all
        (fun i => decide (baseShape.getD i 0 = newShape.getD i 0))) = true
    · rw [if_pos hpre]
      exact ⟨true, rfl⟩
    · rw [if_neg hpre, hdims]
      exact hcell false
  · rw [if_neg hgt, hdims]
    exact hcell true

/-- C5 (amended): Reshape.__init__ performs no size validation at all:
whenever the check-extents scan itself can run (a nonempty new shape and a
well-formed positive tile shape of matching rank), construction succeeds
regardless of whether prod(new_shape) equals prod(base.shape); mismatched
sizes are not rejected with ReshapeSizeMismatch or any other error. -/
theorem reshapeInit_never_size_checks (baseShape newShape tileShape : List Nat)
    (h1 : newShape ≠ []) (h2 : tileShape.length = newShape.length)
    (h3 : ∀ x ∈ tileShape, 0 < x) :
    isOkE (reshapeInit baseShape newShape tileShape) = true := by
  obtain ⟨b, hb⟩ := checkExtents_isOk baseShape newShape tileShape h1 h2 h3
  rw [reshapeInit, hb]
  rfl

/-- Witness for C5 (amended) at base shape (6,), new shape (2, 2) and tile
shape (1, 2): element counts 6 and 4 differ, yet construction succeeds. -/
theorem reshapeInit_never_size_checks_witness :
    isOkE (reshapeInit [6] [2, 2] [1, 2]) = true :=
  reshapeInit_never_size_checks [6] [2, 2] [1, 2] (by decide) (by rfl) (by decide)

/-- Result entry of broadcast for one argument: either the i-th argument
itself, or the i-th argument wrapped in a Broadcast object with the lifted
shape (distarray.py lines 474-481). -/
inductive BRes where
  | orig (i : Nat)
  | bcast (i : Nat) (shape : List Nat)
deriving DecidableEq

/-- One axis iteration of broadcast (distarray.py lines 461-472): collect the
per-argument sizes of the axis, assert that at most two distinct sizes occur
and that 1 is among them when two do, then lift every argument to the
maximum size on this axis. -/
def axisStep (shapes : List (List Nat)) (axis : Nat) : Except String (List (List Nat)) :=
  let sizes := shapes.map (fun s => s.getD axis 0)
  let distinct := sizes.dedup
  if distinct.length > 2 then .error "Mismatched shapes for broadcast"
  else if distinct.length = 2 ∧ ¬(1 ∈ distinct) then .error "Mismatched shapes for broadcast"
  else .ok (shapes.map (fun s => s.set axis (sizes.foldl max 0)))

/-- Axis loop of broadcast, threading the mutated new_shapes list. -/
def liftLoop : List Nat → List (List Nat) → Except String (List (List Nat))
  | [], shapes => .ok shapes
  | ax :: rest, shapes =>
    match axisStep shapes ax with
    | .error e => .error e
    | .ok s2 => liftLoop rest s2

/-- Lifted shapes computed by broadcast (distarray.py lines 448-472): pad
every shape with leading 1s to the maximum rank, then run the axis loop; an
empty argument list fails like Python max() on an empty sequence. -/
def broadcastLifted (shapes : List (List Nat)) : Except String (List (List Nat)) :=
  match shapes with
  | [] => .error "max arg is an empty sequence"
  | _ :: _ =>
    let maxDim := (shapes.map List.length).foldl max 0
    liftLoop (List.range maxDim) (shapes.map (fun s => List.replicate (maxDim - s.length) 1 ++ s))

/-- Result loop of broadcast (distarray.py lines 475-481): the i-th argument
is returned unwrapped exactly when its lifted shape equals its original
shape. -/
def resultsFrom (lifted : List (List Nat)) : Nat → List (List Nat) → List BRes
  | _, [] => []
  | i, o :: os =>
    (if lifted.getD i [] = o then BRes.orig i else BRes.bcast i (lifted.getD i []))
      :: resultsFrom lifted (i + 1) os

/-- broadcast (distarray.py lines 444-483) over the argument shapes: a single
argument is returned as-is without any shape computation; otherwise the
arguments are lifted and each is wrapped iff its lifted shape differs from
its original shape. -/
def broadcastShapes (shapes : List (List Nat)) : Except String (List BRes) :=
  if shapes.length = 1 then .ok [BRes.orig 0]
  else
    match broadcastLifted shapes with
    | .error e => .error e
    | .ok lifted => .ok (resultsFrom lifted 0 shapes)

lemma resultsFrom_getD (lifted : List (List Nat)) :
    ∀ (os : List (List Nat)) (j i : Nat), i < os.length →
      (resultsFrom lifted j os).getD i (BRes.bcast 0 []) =
        (if lifted.getD (j + i) [] = os.getD i [] then BRes.orig (j + i)
         else BRes.bcast (j + i) (lifted.getD (j + i) [])) := by
  intro os
  induction os with
  | nil => intro j i hi; simp at hi
  | cons o os ih =>
    intro j i hi
    cases i with
    | zero => simp [resultsFrom]
    | succ i2 =>
      have h2 : i2 < os.length := by simpa using hi
      rw [resultsFrom, List.getD_cons_succ, ih (j + 1) i2 h2, List.getD_cons_succ]
      have harith : j + 1 + i2 = j + (i2 + 1) := by omega
      rw [harith]

/-- C8: broadcasting an array to its own shape is the identity: whenever
broadcast succeeds on several arguments, the i-th result is the unwrapped
argument itself exactly when the lifted shape computed for it equals its
original shape (so an argument already at the broadcast shape receives no
Broadcast wrapper). -/
theorem broadcast_identity_iff (shapes : List (List Nat)) (res : List BRes)
    (lifted : List (List Nat)) (hres : broadcastShapes shapes = .ok res)
    (hl : broadcastLifted shapes = .ok lifted) (hn : shapes.length ≠ 1)
    (i : Nat) (hi : i < shapes.length) :
    res.getD i (BRes.bcast 0 []) = BRes.orig i ↔ lifted.getD i [] = shapes.getD i [] := by
  rw [broadcastShapes, if_neg hn, hl] at hres
  have hres2 : Except.ok (ε := String) (resultsFrom lifted 0 shapes) = Except.ok res := hres
  injection hres2 with hres3
  rw [← hres3, resultsFrom_getD lifted shapes 0 i hi]
  simp only [Nat.zero_add]
  by_cases hc : lifted.getD i [] = shapes.getD i []
  · rw [if_pos hc]
    exact iff_of_true rfl hc
  · rw [if_neg hc]
    constructor
    · intro h
      exact absurd h (by simp)
    · intro h
      exact absurd h hc

/-- Witness for C8 at shapes (2,3) and (3,): the lifted shapes are (2,3) and
(2,3); argument 0 keeps its own shape and is returned unwrapped, which the
theorem equates with the lifted-equals-original test. -/
theorem broadcast_identity_iff_witness :
    ([BRes.orig 0, BRes.bcast 1 [2, 3]].getD 0 (BRes.bcast 0 []) = BRes.orig 0) ↔
      ([[2, 3], [2, 3]].getD 0 [] = [[2, 3], [3]].getD 0 []) :=
  broadcast_identity_iff [[2, 3], [3]] [BRes.orig 0, BRes.bcast 1 [2, 3]]
    [[2, 3], [2, 3]] (by rfl) (by rfl) (by decide) 0 (by decide)

/-- Modelled from the spec: a dense row-major buffer with its shape, the
value type stored in tiles (the tile module is not under src/). -/
structure NDArr where
  shape : List Nat
  data : List Int
deriving DecidableEq

/-- Modelled from the spec: numpy basic slicing of a row-major dense buffer
by per-axis (start, stop) ranges, as performed by value[subslice] in the
TileSelector (spec section 4.4). -/
def ndSlice (a : NDArr) (s : List (Nat × Nat)) : NDArr :=
  ⟨s.map (fun p => p.2 - p.1),
   (listProd (s.map (fun p => (List.range (p.2 - p.1)).map (fun j => p.1 + j)))).map
     (fun ix => a.data.getD (ravelledPos ix a.shape) 0)⟩

/-- Modelled from the spec: a stored tile; get() returns its dense data
(spec section 4.2, tile.py is not under src/). -/
structure Tile where
  arr : NDArr
deriving DecidableEq

/-- Modelled from the spec: tile.get() returns the tile's dense data. -/
def Tile.get (t : Tile) : NDArr := t.arr

/-- Hash of an extent, modelled injectively by its (ul, lr, array_shape)
triple (spec section 3: the extent is hashable by that triple). -/
def extHash (e : TileExtent) : TileExtent := e

/-- NestedSlice.__eq__ (distarray.py lines 44-46) and plain extent equality:
both key forms compare equal to a stored extent exactly when their extent
equals it. -/
def keyEq : TableKey → TileExtent → Bool
  | .exact e, ke => decide (e = ke)
  | .nested e _, ke => decide (e = ke)

/-- NestedSlice.__hash__ (distarray.py lines 48-49) and plain extent hashing:
both key forms hash to the hash of their extent. -/
def keyHash : TableKey → TileExtent
  | .exact e => extHash e
  | .nested e _ => extHash e

/-- Modelled from the spec: dict lookup against the stored (extent, tile)
entries by the Python dict protocol - locate by hash, then confirm by
equality (spec section 4.4). -/
def dictFind (store : List (TileExtent × Tile)) (k : TableKey) : Option (TileExtent × Tile) :=
  store.find? (fun kv => decide (keyHash k = extHash kv.1) && keyEq k kv.1)

/-- TileSelector (distarray.py lines 55-64): a plain extent key returns the
whole tile via get(), a NestedSlice key returns only value[subslice]. -/
def tileSelector (k : TableKey) (v : Tile) : NDArr :=
  match k with
  | .exact _ => v.get
  | .nested _ s => ndSlice v.arr s

/-- C9: NestedSlice(ex, s) hashes to hash(ex) and compares equal to the plain
extent ex, so a table lookup keyed by the NestedSlice addresses the same
stored entry as the extent itself, and the TileSelector then returns only
the portion value[s] of the stored tile rather than the whole tile. -/
theorem nestedSlice_addresses_same_entry (ex : TileExtent) (s : List (Nat × Nat))
    (store : List (TileExtent × Tile)) (v : Tile) :
    keyHash (TableKey.nested ex s) = keyHash (TableKey.exact ex)
    ∧ dictFind store (TableKey.nested ex s) = dictFind store (TableKey.exact ex)
    ∧ tileSelector (TableKey.nested ex s) v = ndSlice v.arr s
    ∧ tileSelector (TableKey.exact ex) v = v.get :=
  ⟨rfl, rfl, rfl, rfl⟩

end Spartan
